import Mathlib

/-!
Verification of the producer-consumer pipeline in
`assignment2/producer_consumer.py`.

The pipeline moves a list of numbers from a source list to a destination
list through a bounded FIFO queue.  The producer thread puts the tagged
pairs `(i, source[i])` in index order and then the terminal marker
`(None, None)`; the consumer thread gets elements until it sees the marker,
writing `destination[i] = item` for every real pair.  The interleaving of
the two threads is embedded below as a small-step transition relation on a
pipeline state; the fault paths of the two `run` methods are embedded as
sequential functions in an exception monad.
-/

namespace UptimeCrew

/-- Channel elements are pairs with optional components, mirroring the
Python tuples put on the queue: a real item is `(i, value)` and the
terminal marker is `(None, None)`. -/
abbrev Elem (α : Type) : Type := Option Nat × Option α

/-- The terminal marker `(None, None)` put by the producer after all items
(`producer_consumer.py` line 65). -/
def sentinel {α : Type} : Elem α := (none, none)

/-- The equality test the consumer applies to each received element,
embedding `i_item == (None, None)` (`producer_consumer.py` line 99). -/
def sentinelCheck {α : Type} [DecidableEq α] (e : Elem α) : Bool :=
  decide (e = sentinel)

/-- The tagged items generated from a list, with indices starting at `k`;
`itemsFrom 0 source` is the stream of pairs `(i, item)` produced by
`enumerate(self.source)` in `Producer.run` (lines 59-60). -/
def itemsFrom {α : Type} (k : Nat) : List α → List (Elem α)
  | [] => []
  | v :: rest => (some k, some v) :: itemsFrom (k + 1) rest

/-- Everything a fault-free producer puts on the queue: all tagged items in
index order followed by exactly one sentinel. -/
def fullStream {α : Type} (source : List α) : List (Elem α) :=
  itemsFrom 0 source ++ [sentinel]

/-- Channel capacity computed by the orchestrator, embedding
`max(1, size // 2)` (`producer_consumer.py` line 127). -/
def channelCap (n : Nat) : Nat := max 1 (n / 2)

/-- Shared state of one run of the pipeline: the next index the producer
will put, whether the sentinel has been put, the queue contents (head is
the oldest element), the destination slots, whether the consumer has left
its loop, and the histories of elements whose put respectively get calls
have completed, in completion order. -/
structure PCState (α : Type) where
  prodIdx : Nat
  sentSent : Bool
  queue : List (Elem α)
  dest : List (Option α)
  consDone : Bool
  prodHist : List (Elem α)
  consHist : List (Elem α)
  deriving Repr, DecidableEq

/-- Initial state built by `main` (lines 122-127): destination is
`[None] * size`, the queue is empty, both threads are at the start of
their loops. -/
def initState {α : Type} (source : List α) : PCState α :=
  ⟨0, false, [], List.replicate source.length none, false, [], []⟩

/-- One interleaved step of the two threads against the shared bounded
queue of capacity `C`.  A put completes only while the queue is below
capacity (`q.put` blocks on a full queue) and a get completes only while
the queue is nonempty (`q.get` blocks on an empty queue).

* `producerPut` embeds one iteration of the loop in `Producer.run`
  (lines 59-61): put `(i, source[i])` and advance.
* `producerPutSentinel` embeds line 65: after the last item, put
  `(None, None)` exactly once; the producer then terminates.
* `consumerGetItem` embeds lines 96-105 for a non-sentinel element:
  get `(i, item)` and execute `destination[i] = item`; the bound
  `i < dest.length` records that the assignment succeeds, which is
  guaranteed by producer correctness.
* `consumerGetSentinel` embeds lines 99-101: get `(None, None)` and break
  out of the loop; the consumer makes no further get. -/
inductive Step {α : Type} (C : Nat) (source : List α) :
    PCState α → PCState α → Prop
  | producerPut (s : PCState α) (hsent : s.sentSent = false)
      (hlt : s.prodIdx < source.length) (hcap : s.queue.length < C) :
      Step C source s
        { s with
          prodIdx := s.prodIdx + 1
          queue := s.queue ++ [(some s.prodIdx, some (source.get ⟨s.prodIdx, hlt⟩))]
          prodHist := s.prodHist ++ [(some s.prodIdx, some (source.get ⟨s.prodIdx, hlt⟩))] }
  | producerPutSentinel (s : PCState α) (hsent : s.sentSent = false)
      (hidx : s.prodIdx = source.length) (hcap : s.queue.length < C) :
      Step C source s
        { s with
          sentSent := true
          queue := s.queue ++ [sentinel]
          prodHist := s.prodHist ++ [sentinel] }
  | consumerGetItem (s : PCState α) (i : Nat) (w : Option α) (rest : List (Elem α))
      (hdone : s.consDone = false) (hq : s.queue = (some i, w) :: rest)
      (hb : i < s.dest.length) :
      Step C source s
        { s with
          queue := rest
          dest := s.dest.set i w
          consHist := s.consHist ++ [(some i, w)] }
  | consumerGetSentinel (s : PCState α) (rest : List (Elem α))
      (hdone : s.consDone = false) (hq : s.queue = sentinel :: rest) :
      Step C source s
        { s with
          queue := rest
          consDone := true
          consHist := s.consHist ++ [sentinel] }

/-- Reachability of a pipeline state from the initial state under an
arbitrary interleaving of the two threads. -/
def Reach {α : Type} (C : Nat) (source : List α) (s : PCState α) : Prop :=
  Relation.ReflTransGen (Step C source) (initState source) s

/-! ### Fault model for the two run loops

`Producer.run` and `Consumer.run` both wrap their whole loop in
`try ... except Exception as e: logging.error(...)`.  To settle the
error-handling claims we embed each loop as a sequential function in an
exception monad, with an oracle `failAt` telling which numbered queue call
raises.  The surrounding handler is the final `match`: both run functions
below are total, returning the elements put (producer) respectively the
destination (consumer) together with a flag recording that an exception
was caught and logged. -/

/-- Body of the producer loop (lines 59-65): the call numbered `i` is the
put made for index `i`, the call numbered `source.length` is the sentinel
put.  A raise at call `i` aborts the loop; the error payload carries the
elements whose puts had already completed, and in particular no sentinel
is put after a raise. -/
def producerBody {α : Type} (failAt : Nat → Bool) :
    Nat → List α → Except (List (Elem α)) (List (Elem α))
  | i, [] => if failAt i then Except.error [] else Except.ok [sentinel]
  | i, v :: rest =>
    if failAt i then Except.error []
    else
      match producerBody failAt (i + 1) rest with
      | Except.ok l => Except.ok ((some i, some v) :: l)
      | Except.error l => Except.error ((some i, some v) :: l)

/-- `Producer.run` (lines 58-68): the body runs under the exception
handler, which logs the fault and returns; the second component records
whether a fault was caught.  The function is total, so no exception ever
escapes to the orchestrator. -/
def producerRun {α : Type} (source : List α) (failAt : Nat → Bool) :
    List (Elem α) × Bool :=
  match producerBody failAt 0 source with
  | Except.ok l => (l, false)
  | Except.error l => (l, true)

/-- Body of the consumer loop (lines 94-106) against the stream of
elements successive `q.get()` calls would return; call `j` is the get
numbered `j`.  A raise can come from the oracle at a get, from the
assignment `destination[i] = item` going out of bounds, or from unpacking
an element whose index component is `None` but which is not the sentinel.
The successful result carries the destination and whether the sentinel was
seen (an exhausted stream means the consumer is still blocked in `q.get`).
-/
def consumerBody {α : Type} (failAt : Nat → Bool) :
    Nat → List (Option α) → List (Elem α) →
      Except (List (Option α)) (List (Option α) × Bool)
  | _, dest, [] => Except.ok (dest, false)
  | j, dest, e :: rest =>
    if failAt j then Except.error dest
    else
      match e with
      | (none, none) => Except.ok (dest, true)
      | (some i, w) =>
        if i < dest.length then consumerBody failAt (j + 1) (dest.set i w) rest
        else Except.error dest
      | (none, some _) => Except.error dest

/-- `Consumer.run` (lines 94-110): the body runs under the exception
handler.  Result components: final destination, whether the loop ended by
seeing the sentinel, whether a fault was caught and logged. -/
def consumerRun {α : Type} (failAt : Nat → Bool) (dest : List (Option α))
    (stream : List (Elem α)) : List (Option α) × Bool × Bool :=
  match consumerBody failAt 0 dest stream with
  | Except.ok (d, fin) => (d, fin, false)
  | Except.error d => (d, false, true)

/-! ### The orchestrator `main` (lines 112-148)

`main` takes no parameters: the source length is the local constant
`size = 10`, the source is drawn from the fixed random policy
`random.choice([random.randint(1, 100), random.random() * 100])`, the
destination starts as `[None] * size`, and the queue capacity is
`max(1, size // 2)`.  Randomness is modelled by an oracle `draw` giving
the value of each slot. -/

/-- The constant `size = 10` fixed inside `main` (line 118). -/
def mainSize : Nat := 10

/-- The source list built by `main` (line 121): `mainSize` values drawn
from the fixed random policy, modelled by the oracle `draw`. -/
def mainSource {α : Type} (draw : Nat → α) : List α :=
  (List.range mainSize).map draw

/-- The destination list allocated by `main` (line 122): `[None] * size`. -/
def mainDestination (α : Type) : List (Option α) :=
  List.replicate mainSize none

/-- The queue capacity used by `main` (line 127). -/
def mainCapacity : Nat := channelCap mainSize

/-- Written from the words of the spec for comparison with `mainSource`:
section 6 describes a run entry point whose input is a desired source
length `N` (default 10), so the source it builds has the requested length
`N`. -/
def specEntrySource {α : Type} (N : Nat) (draw : Nat → α) : List α :=
  (List.range N).map draw

/-- The default source length the spec claims for the entry point. -/
def specEntryDefaultN : Nat := 10

/-! ### Helper lemmas on tagged item streams -/

lemma itemsFrom_length {α : Type} (k : Nat) (l : List α) :
    (itemsFrom k l).length = l.length := by
  induction l generalizing k with
  | nil => rfl
  | cons v rest ih => simp [itemsFrom, ih]

lemma itemsFrom_append {α : Type} (l₁ l₂ : List α) (k : Nat) :
    itemsFrom k (l₁ ++ l₂) = itemsFrom k l₁ ++ itemsFrom (k + l₁.length) l₂ := by
  induction l₁ generalizing k with
  | nil => simp [itemsFrom]
  | cons v rest ih =>
    have h : k + 1 + rest.length = k + (rest.length + 1) := by omega
    show ((some k, some v) :: itemsFrom (k + 1) (rest ++ l₂)) =
      itemsFrom k (v :: rest) ++ itemsFrom (k + (v :: rest).length) l₂
    rw [ih (k + 1), h]
    rfl

lemma itemsFrom_getElem? {α : Type} (l : List α) : ∀ (k n : Nat),
    (itemsFrom k l)[n]? = (l[n]?).map (fun v => ((some (k + n), some v) : Elem α)) := by
  induction l with
  | nil => intro k n; simp [itemsFrom]
  | cons v rest ih =>
    intro k n
    cases n with
    | zero => simp [itemsFrom]
    | succ m =>
      have h : k + 1 + m = k + (m + 1) := by omega
      simp [itemsFrom, ih (k + 1) m, h]

lemma itemsFrom_countP_fst {α : Type} (i : Nat) (l : List α) : ∀ k : Nat,
    (itemsFrom k l).countP (fun e => decide (e.1 = some i)) =
      if k ≤ i ∧ i < k + l.length then 1 else 0 := by
  induction l with
  | nil =>
    intro k
    simp only [itemsFrom, List.countP_nil, List.length_nil]
    rw [if_neg]
    omega
  | cons v rest ih =>
    intro k
    simp only [itemsFrom, List.countP_cons, ih (k + 1), List.length_cons]
    by_cases hk : k = i
    · subst hk
      rw [if_neg (show ¬(k + 1 ≤ k ∧ k < k + 1 + rest.length) by omega),
        if_pos (show k ≤ k ∧ k < k + (rest.length + 1) by omega)]
      simp
    · by_cases hrange : k + 1 ≤ i ∧ i < k + 1 + rest.length
      · rw [if_pos hrange, if_pos (show k ≤ i ∧ i < k + (rest.length + 1) by omega)]
        simp [hk]
      · rw [if_neg hrange,
          if_neg (show ¬(k ≤ i ∧ i < k + (rest.length + 1)) by omega)]
        simp [hk]

lemma itemsFrom_countP_fstNone {α : Type} (l : List α) : ∀ k : Nat,
    (itemsFrom k l).countP (fun e => decide (e.1 = (none : Option Nat))) = 0 := by
  induction l with
  | nil => intro k; simp [itemsFrom]
  | cons v rest ih => intro k; simp [itemsFrom, List.countP_cons, ih (k + 1)]

/-! ### Helper lemmas on lists -/

lemma take_getElem? {α : Type} (l : List α) : ∀ (n i : Nat), i < n →
    (l.take n)[i]? = l[i]? := by
  induction l with
  | nil => intro n i _; simp
  | cons x rest ih =>
    intro n i h
    cases n with
    | zero => omega
    | succ m =>
      cases i with
      | zero => simp
      | succ j => simp [ih m j (by omega)]

lemma take_succ_eq {α : Type} (l : List α) : ∀ (p : Nat) (h : p < l.length),
    l.take (p + 1) = l.take p ++ [l.get ⟨p, h⟩] := by
  induction l with
  | nil => intro p h; simp at h
  | cons x rest ih =>
    intro p h
    cases p with
    | zero => rfl
    | succ m =>
      have h2 := ih m (by simpa using h)
      simp only [List.take_succ_cons, List.cons_append, h2, List.get_cons_succ]

/-! ### The destination after a number of completed gets

`destAfter source c` is the destination list after the first `c` elements
of the full stream have been consumed: slot `i` holds `source[i]` when
`i < c` and is still `None` otherwise. -/

def destAfter {α : Type} : List α → Nat → List (Option α)
  | [], _ => []
  | _ :: rest, 0 => none :: destAfter rest 0
  | v :: rest, c + 1 => some v :: destAfter rest c

lemma destAfter_zero {α : Type} (l : List α) :
    destAfter l 0 = List.replicate l.length none := by
  induction l with
  | nil => rfl
  | cons v rest ih => simp [destAfter, ih, List.replicate_succ]

lemma destAfter_length {α : Type} (l : List α) : ∀ c : Nat,
    (destAfter l c).length = l.length := by
  induction l with
  | nil => intro c; rfl
  | cons v rest ih => intro c; cases c <;> simp [destAfter, ih]

lemma destAfter_ge {α : Type} (l : List α) : ∀ c : Nat, l.length ≤ c →
    destAfter l c = l.map some := by
  induction l with
  | nil => intro c _; rfl
  | cons v rest ih =>
    intro c hc
    cases c with
    | zero => simp at hc
    | succ m => simp [destAfter, ih m (by simpa using hc)]

lemma destAfter_set {α : Type} (l : List α) : ∀ (c : Nat) (v : α),
    l[c]? = some v → (destAfter l c).set c (some v) = destAfter l (c + 1) := by
  induction l with
  | nil => intro c v h; simp at h
  | cons x rest ih =>
    intro c v h
    cases c with
    | zero =>
      simp only [List.getElem?_cons_zero, Option.some.injEq] at h
      subst h
      simp [destAfter]
    | succ m =>
      simp only [List.getElem?_cons_succ] at h
      simp [destAfter, ih m v h]

lemma destAfter_getD {α : Type} (l : List α) : ∀ (c i : Nat), i < l.length →
    (destAfter l c).getD i none = if i < c then l[i]? else none := by
  induction l with
  | nil => intro c i h; simp at h
  | cons x rest ih =>
    intro c i h
    cases c with
    | zero =>
      rw [if_neg (by omega)]
      cases i with
      | zero => simp [destAfter]
      | succ n =>
        have := ih 0 n (by simpa using h)
        simp only [destAfter, List.getD_cons_succ, this]
        rw [if_neg (by omega)]
    | succ m =>
      cases i with
      | zero => simp [destAfter]
      | succ n =>
        have h2 := ih m n (by simpa using h)
        rw [show destAfter (x :: rest) (m + 1) = some x :: destAfter rest m from rfl,
          List.getD_cons_succ, h2]
        by_cases hnm : n < m
        · rw [if_pos hnm, if_pos (by omega), List.getElem?_cons_succ]
        · rw [if_neg hnm, if_neg (by omega)]

/-! ### The inductive invariant of the pipeline -/

/-- The sequence of elements a fault-free producer has put after finishing
`p` item iterations, the sentinel included when `b` is set. -/
def enqueuedUpTo {α : Type} (source : List α) (p : Nat) (b : Bool) : List (Elem α) :=
  itemsFrom 0 (source.take p) ++ (if b then [sentinel] else [])

lemma enqueuedUpTo_length {α : Type} (source : List α) (p : Nat) (b : Bool)
    (hp : p ≤ source.length) :
    (enqueuedUpTo source p b).length = p + (if b then 1 else 0) := by
  rw [enqueuedUpTo, List.length_append, itemsFrom_length, List.length_take,
    Nat.min_eq_left hp]
  cases b <;> simp

/-- Shape of the element sitting right after a prefix `ch` of the enqueued
stream: at a position below `p` it is the tagged item of that index, and
otherwise it can only be the sentinel, present exactly when `b` is set. -/
lemma enqueued_split {α : Type} (source : List α) (p : Nat) (b : Bool)
    (hp : p ≤ source.length) (ch rest : List (Elem α)) (e : Elem α)
    (h : enqueuedUpTo source p b = ch ++ e :: rest) :
    (∃ v, ch.length < p ∧ source[ch.length]? = some v ∧ e = (some ch.length, some v)) ∨
    (b = true ∧ ch.length = p ∧ e = sentinel) := by
  have hidx : (enqueuedUpTo source p b)[ch.length]? = some e := by
    rw [h, List.getElem?_append_right (le_refl ch.length)]
    simp
  have hlen : (itemsFrom 0 (source.take p)).length = p := by
    rw [itemsFrom_length, List.length_take]
    exact Nat.min_eq_left hp
  by_cases hcp : ch.length < p
  · left
    rw [enqueuedUpTo, List.getElem?_append_left (by omega), itemsFrom_getElem?,
      take_getElem? source p ch.length hcp] at hidx
    have hsome : ch.length < source.length := by omega
    rw [List.getElem?_eq_getElem hsome] at hidx
    simp only [Option.map_some', Option.some.injEq, Nat.zero_add] at hidx
    exact ⟨source[ch.length], hcp, List.getElem?_eq_getElem hsome, hidx.symm⟩
  · right
    rw [enqueuedUpTo, List.getElem?_append_right (by omega), hlen] at hidx
    cases b with
    | false => simp at hidx
    | true =>
      rw [if_pos rfl] at hidx
      cases hsub : ch.length - p with
      | zero =>
        rw [hsub] at hidx
        simp only [List.getElem?_cons_zero, Option.some.injEq] at hidx
        exact ⟨rfl, by omega, hidx.symm⟩
      | succ m =>
        rw [hsub] at hidx
        simp at hidx

/-- The inductive invariant tying together every reachable pipeline state:
the producer position is within the source; the sentinel is only put after
the last item; the put history is exactly the stream determined by the
producer position; the queue is FIFO, so the get history followed by the
queue contents is the put history; the destination is determined by the
number of completed gets; the consumer is done exactly when it has taken
all items and the sentinel; the queue never exceeds the capacity. -/
structure Inv {α : Type} (C : Nat) (source : List α) (s : PCState α) : Prop where
  prod_le : s.prodIdx ≤ source.length
  sent_imp : s.sentSent = true → s.prodIdx = source.length
  hist_eq : s.prodHist = enqueuedUpTo source s.prodIdx s.sentSent
  fifo : s.prodHist = s.consHist ++ s.queue
  dest_eq : s.dest = destAfter source s.consHist.length
  done_iff : s.consDone = true ↔ s.consHist.length = source.length + 1
  cap : s.queue.length ≤ C

lemma initState_inv {α : Type} (C : Nat) (source : List α) :
    Inv C source (initState source) := by
  refine ⟨Nat.zero_le _, ?_, ?_, rfl, ?_, ?_, Nat.zero_le _⟩
  · intro hb; simp [initState] at hb
  · simp [initState, enqueuedUpTo, itemsFrom]
  · show List.replicate source.length none = destAfter source ([] : List (Elem α)).length
    rw [List.length_nil, destAfter_zero]
  · show false = true ↔ ([] : List (Elem α)).length = source.length + 1
    simp

lemma enqueuedUpTo_false {α : Type} (source : List α) (p : Nat) :
    enqueuedUpTo source p false = itemsFrom 0 (source.take p) := by
  simp [enqueuedUpTo]

lemma enqueuedUpTo_true {α : Type} (source : List α) (p : Nat) :
    enqueuedUpTo source p true = itemsFrom 0 (source.take p) ++ [sentinel] := by
  simp [enqueuedUpTo]

/-- Every step of the pipeline preserves the invariant. -/
lemma step_inv {α : Type} {C : Nat} {source : List α} {s s' : PCState α}
    (inv : Inv C source s) (hs : Step C source s s') : Inv C source s' := by
  obtain ⟨hle, hsi, hhist, hfifo, hdest, hdone, hcap0⟩ := inv
  cases hs with
  | producerPut hsent hlt hcap =>
    refine ⟨?_, ?_, ?_, ?_, hdest, hdone, ?_⟩
    · show s.prodIdx + 1 ≤ source.length
      omega
    · intro hb
      simp only [hsent, Bool.false_eq_true] at hb
    · show s.prodHist ++ [(some s.prodIdx, some (source.get ⟨s.prodIdx, hlt⟩))] =
        enqueuedUpTo source (s.prodIdx + 1) s.sentSent
      rw [hhist, hsent, enqueuedUpTo_false, enqueuedUpTo_false,
        take_succ_eq source s.prodIdx hlt, itemsFrom_append]
      congr 1
      rw [List.length_take, Nat.min_eq_left (le_of_lt hlt)]
      simp [itemsFrom]
    · show s.prodHist ++ [(some s.prodIdx, some (source.get ⟨s.prodIdx, hlt⟩))] =
        s.consHist ++ (s.queue ++ [(some s.prodIdx, some (source.get ⟨s.prodIdx, hlt⟩))])
      rw [hfifo, List.append_assoc]
    · show (s.queue ++ [(some s.prodIdx, some (source.get ⟨s.prodIdx, hlt⟩))]).length ≤ C
      rw [List.length_append]
      simp only [List.length_singleton]
      omega
  | producerPutSentinel hsent hidx hcap =>
    refine ⟨hle, ?_, ?_, ?_, hdest, hdone, ?_⟩
    · intro _
      exact hidx
    · show s.prodHist ++ [sentinel] = enqueuedUpTo source s.prodIdx true
      rw [hhist, hsent, enqueuedUpTo_false, enqueuedUpTo_true]
    · show s.prodHist ++ [sentinel] = s.consHist ++ (s.queue ++ [sentinel])
      rw [hfifo, List.append_assoc]
    · show (s.queue ++ [(sentinel : Elem α)]).length ≤ C
      rw [List.length_append]
      simp only [List.length_singleton]
      omega
  | consumerGetItem i w rest hdone2 hq hb =>
    have hsplit := enqueued_split source s.prodIdx s.sentSent hle s.consHist rest
      (some i, w) (by rw [← hhist, hfifo, hq])
    rcases hsplit with ⟨v, hclt, hv, he⟩ | ⟨_, _, he⟩
    · obtain ⟨hi2, hw⟩ : i = s.consHist.length ∧ w = some v := by simpa using he
      subst hi2
      subst hw
      refine ⟨hle, hsi, hhist, ?_, ?_, ?_, ?_⟩
      · show s.prodHist = (s.consHist ++ [((some s.consHist.length : Option Nat), some v)]) ++ rest
        rw [hfifo, hq, List.append_assoc]
        rfl
      · show s.dest.set s.consHist.length (some v) =
          destAfter source (s.consHist ++ [((some s.consHist.length : Option Nat), some v)]).length
        rw [hdest, destAfter_set source s.consHist.length v hv, List.length_append,
          List.length_singleton]
      · show s.consDone = true ↔
          (s.consHist ++ [((some s.consHist.length : Option Nat), some v)]).length =
            source.length + 1
        rw [hdone2, List.length_append, List.length_singleton]
        constructor
        · intro hax
          exact absurd hax (by simp)
        · intro hlen
          exact absurd hlen (by omega)
      · show rest.length ≤ C
        have hql : s.queue.length = rest.length + 1 := by rw [hq]; rfl
        omega
    · exact absurd he (by simp [sentinel])
  | consumerGetSentinel rest hdone2 hq =>
    have hsplit := enqueued_split source s.prodIdx s.sentSent hle s.consHist rest
      sentinel (by rw [← hhist, hfifo, hq])
    rcases hsplit with ⟨v, _, _, he⟩ | ⟨hsb, hcp, _⟩
    · exact absurd he (by simp [sentinel])
    · have hpn : s.prodIdx = source.length := hsi hsb
      have hcn : s.consHist.length = source.length := by omega
      refine ⟨hle, hsi, hhist, ?_, ?_, ?_, ?_⟩
      · show s.prodHist = (s.consHist ++ [(sentinel : Elem α)]) ++ rest
        rw [hfifo, hq, List.append_assoc]
        rfl
      · show s.dest = destAfter source (s.consHist ++ [(sentinel : Elem α)]).length
        rw [hdest, List.length_append, List.length_singleton, hcn,
          destAfter_ge source source.length (le_refl _),
          destAfter_ge source (source.length + 1) (by omega)]
      · show true = true ↔ (s.consHist ++ [(sentinel : Elem α)]).length = source.length + 1
        rw [List.length_append, List.length_singleton, hcn]
        simp
      · show rest.length ≤ C
        have hql : s.queue.length = rest.length + 1 := by rw [hq]; rfl
        omega

/-- Every reachable state satisfies the invariant. -/
lemma reach_inv {α : Type} {C : Nat} {source : List α} {s : PCState α}
    (h : Reach C source s) : Inv C source s := by
  induction h with
  | refl => exact initState_inv C source
  | tail _ hbc ih => exact step_inv ih hbc

/-! ### Consequences of the invariant -/

/-- The get history is always a prefix of the full stream. -/
lemma inv_stream_front {α : Type} {C : Nat} {source : List α} {s : PCState α}
    (inv : Inv C source s) : ∃ t, s.consHist ++ t = fullStream source := by
  cases hb : s.sentSent with
  | true =>
    have hpn := inv.sent_imp hb
    refine ⟨s.queue, ?_⟩
    rw [← inv.fifo, inv.hist_eq, hb, enqueuedUpTo_true, hpn, List.take_length,
      fullStream]
  | false =>
    refine ⟨s.queue ++ (itemsFrom s.prodIdx (source.drop s.prodIdx) ++ [sentinel]), ?_⟩
    have h1 : itemsFrom 0 (source.take s.prodIdx) ++
        itemsFrom s.prodIdx (source.drop s.prodIdx) = itemsFrom 0 source := by
      have h2 := itemsFrom_append (source.take s.prodIdx) (source.drop s.prodIdx) 0
      rw [List.take_append_drop, List.length_take, Nat.min_eq_left inv.prod_le,
        Nat.zero_add] at h2
      exact h2.symm
    rw [← List.append_assoc, ← inv.fifo, inv.hist_eq, hb, enqueuedUpTo_false,
      fullStream, ← h1, List.append_assoc]

/-- Once the consumer is done, its get history is exactly the full stream. -/
lemma inv_done_consHist {α : Type} {C : Nat} {source : List α} {s : PCState α}
    (inv : Inv C source s) (hc : s.consDone = true) :
    s.consHist = fullStream source := by
  have hlen := inv.done_iff.mp hc
  have h1 : s.prodHist.length = s.consHist.length + s.queue.length := by
    rw [inv.fifo, List.length_append]
  have h2 : s.prodHist.length = s.prodIdx + (if s.sentSent then 1 else 0) := by
    rw [inv.hist_eq]
    exact enqueuedUpTo_length source _ _ inv.prod_le
  have hple := inv.prod_le
  cases hb : s.sentSent with
  | false =>
    exfalso
    rw [hb] at h2
    simp at h2
    omega
  | true =>
    have hpn := inv.sent_imp hb
    have hq0 : s.queue.length = 0 := by
      rw [hb] at h2
      simp at h2
      omega
    have hqnil : s.queue = [] := List.length_eq_zero.mp hq0
    have hch : s.consHist = s.prodHist := by
      rw [inv.fifo, hqnil, List.append_nil]
    rw [hch, inv.hist_eq, hb, enqueuedUpTo_true, hpn, List.take_length, fullStream]

/-- Once the consumer is done, the destination holds exactly the source. -/
lemma inv_dest_final {α : Type} {C : Nat} {source : List α} {s : PCState α}
    (inv : Inv C source s) (hc : s.consDone = true) :
    s.dest = source.map some := by
  have hlen := inv.done_iff.mp hc
  rw [inv.dest_eq, hlen, destAfter_ge source (source.length + 1) (by omega)]

lemma itemsFrom_take {α : Type} (l : List α) : ∀ (k n : Nat),
    (itemsFrom k l).take n = itemsFrom k (l.take n) := by
  induction l with
  | nil => intro k n; simp [itemsFrom]
  | cons v rest ih =>
    intro k n
    cases n with
    | zero => simp [itemsFrom]
    | succ m => simp [itemsFrom, ih (k + 1) m]

/-- For an in-range index, the number of items with that index taken so far
is one when the corresponding get completed and zero otherwise. -/
lemma inv_countP {α : Type} {C : Nat} {source : List α} {s : PCState α}
    (inv : Inv C source s) (i : Nat) (hi : i < source.length) :
    s.consHist.countP (fun e => decide (e.1 = some i)) =
      if i < s.consHist.length then 1 else 0 := by
  have hch : s.consHist = s.prodHist.take s.consHist.length := by
    rw [inv.fifo, List.take_left]
  have hlen : s.prodHist.length = s.prodIdx + (if s.sentSent then 1 else 0) := by
    rw [inv.hist_eq]
    exact enqueuedUpTo_length source _ _ inv.prod_le
  have hcle : s.consHist.length ≤ s.prodHist.length := by
    rw [inv.fifo, List.length_append]
    omega
  have hple := inv.prod_le
  by_cases hcp : s.consHist.length ≤ s.prodIdx
  · have hch2 : s.consHist = itemsFrom 0 (source.take s.consHist.length) := by
      conv_lhs => rw [hch]
      rw [inv.hist_eq]
      simp only [enqueuedUpTo]
      rw [List.take_append_of_le_length
          (by rw [itemsFrom_length, List.length_take, Nat.min_eq_left inv.prod_le]
              exact hcp),
        itemsFrom_take, List.take_take, Nat.min_eq_left hcp]
    have hcount : s.consHist.countP (fun e => decide (e.1 = some i)) =
        if 0 ≤ i ∧ i < 0 + (source.take s.consHist.length).length then 1 else 0 := by
      conv_lhs => rw [hch2]
      exact itemsFrom_countP_fst i (source.take s.consHist.length) 0
    rw [hcount, List.length_take]
    by_cases hic : i < s.consHist.length
    · rw [if_pos (by omega), if_pos hic]
    · rw [if_neg (by omega), if_neg hic]
  · have hb : s.sentSent = true := by
      cases hb2 : s.sentSent
      · exfalso
        rw [hb2] at hlen
        simp at hlen
        omega
      · rfl
    have hpn := inv.sent_imp hb
    have hcn : s.consHist.length = source.length + 1 := by
      rw [hb] at hlen
      simp at hlen
      omega
    have hlenfull : (itemsFrom 0 source ++ [(sentinel : Elem α)]).length =
        source.length + 1 := by
      rw [List.length_append, itemsFrom_length, List.length_singleton]
    have hch2 : s.consHist = fullStream source := by
      rw [hch, inv.hist_eq, hb, enqueuedUpTo_true, hpn, List.take_length, hcn,
        ← hlenfull, List.take_length]
      rfl
    have hcount : s.consHist.countP (fun e => decide (e.1 = some i)) = 1 := by
      conv_lhs => rw [hch2]
      rw [fullStream, List.countP_append, itemsFrom_countP_fst i source 0,
        if_pos (show 0 ≤ i ∧ i < 0 + source.length by omega)]
      simp [sentinel]
    rw [hcount, if_pos (by omega)]

/-- The consumer never takes more than one element whose index component is
`None`; in any stream put by the producer, only the sentinel has that
shape. -/
lemma inv_sentinel_count {α : Type} {C : Nat} {source : List α} {s : PCState α}
    (inv : Inv C source s) :
    s.consHist.countP (fun e => decide (e.1 = (none : Option Nat))) ≤ 1 := by
  obtain ⟨t, ht⟩ := inv_stream_front inv
  have h1 : (fullStream source).countP
      (fun e => decide (e.1 = (none : Option Nat))) = 1 := by
    rw [fullStream, List.countP_append, itemsFrom_countP_fstNone]
    simp [sentinel]
  have h2 : s.consHist.countP (fun e => decide (e.1 = (none : Option Nat))) +
      t.countP (fun e => decide (e.1 = (none : Option Nat))) = 1 := by
    rw [← List.countP_append, ht, h1]
  omega

/-! ### Behaviour of the caught fault paths -/

/-- When the producer body aborts on a raise, the elements already put
never include the sentinel. -/
lemma producerBody_error_shape {α : Type} (failAt : Nat → Bool) :
    ∀ (l : List α) (i : Nat) (out : List (Elem α)),
      producerBody failAt i l = Except.error out → sentinel ∉ out := by
  intro l
  induction l with
  | nil =>
    intro i out h
    simp only [producerBody] at h
    by_cases hf : failAt i
    · rw [if_pos hf] at h
      injection h with h2
      subst h2
      simp
    · rw [if_neg hf] at h
      cases h
  | cons v rest ih =>
    intro i out h
    simp only [producerBody] at h
    by_cases hf : failAt i
    · rw [if_pos hf] at h
      injection h with h2
      subst h2
      simp
    · rw [if_neg hf] at h
      cases hrec : producerBody failAt (i + 1) rest with
      | ok l2 =>
        rw [hrec] at h
        cases h
      | error l2 =>
        rw [hrec] at h
        injection h with h2
        subst h2
        intro hmem
        rcases List.mem_cons.mp hmem with hhd | htl
        · simp [sentinel] at hhd
        · exact (ih (i + 1) l2 hrec) htl

/-- When the producer body completes without a raise, it has put exactly
the tagged items in order followed by one sentinel. -/
lemma producerBody_ok_shape {α : Type} (failAt : Nat → Bool) :
    ∀ (l : List α) (i : Nat) (out : List (Elem α)),
      producerBody failAt i l = Except.ok out → out = itemsFrom i l ++ [sentinel] := by
  intro l
  induction l with
  | nil =>
    intro i out h
    simp only [producerBody] at h
    by_cases hf : failAt i
    · rw [if_pos hf] at h
      cases h
    · rw [if_neg hf] at h
      injection h with h2
      subst h2
      simp [itemsFrom]
  | cons v rest ih =>
    intro i out h
    simp only [producerBody] at h
    by_cases hf : failAt i
    · rw [if_pos hf] at h
      cases h
    · rw [if_neg hf] at h
      cases hrec : producerBody failAt (i + 1) rest with
      | ok l2 =>
        rw [hrec] at h
        injection h with h2
        subst h2
        rw [ih (i + 1) l2 hrec]
        simp [itemsFrom]
      | error l2 =>
        rw [hrec] at h
        cases h

/-! ### Concrete example runs -/

/-- Final state of a complete run on the source `[42]`. -/
def exFinal : PCState Int :=
  ⟨1, true, [], [some 42], true, [(some 0, some 42), (none, none)],
    [(some 0, some 42), (none, none)]⟩

/-- Intermediate state of the same run after the first put: the queue of
capacity one is full. -/
def exMid : PCState Int :=
  ⟨1, false, [(some 0, some 42)], [none], false, [(some 0, some 42)], []⟩

/-- State following `exMid` after the consumer takes the item. -/
def exMid2 : PCState Int :=
  ⟨1, false, [], [some 42], false, [(some 0, some 42)], [(some 0, some 42)]⟩

/-- State reached on the empty source after the producer puts the
sentinel. -/
def exEmptySent : PCState Int :=
  ⟨0, true, [(none, none)], [], false, [(none, none)], []⟩

lemma exMid_reach : Reach (channelCap 1) [(42 : Int)] exMid :=
  Relation.ReflTransGen.single
    (Step.producerPut (initState [(42 : Int)]) rfl (by decide) (by decide))

lemma exMid_step : Step (channelCap 1) [(42 : Int)] exMid exMid2 :=
  Step.consumerGetItem exMid 0 (some 42) [] rfl rfl (by decide)

lemma exFinal_reach : Reach 1 [(42 : Int)] exFinal :=
  Relation.ReflTransGen.head
    (Step.producerPut (initState [(42 : Int)]) rfl (by decide) (by decide))
    (Relation.ReflTransGen.head
      (Step.consumerGetItem _ 0 (some 42) [] rfl rfl (by decide))
      (Relation.ReflTransGen.head
        (Step.producerPutSentinel _ rfl rfl (by decide))
        (Relation.ReflTransGen.single
          (Step.consumerGetSentinel _ [] rfl rfl))))

/-- The same final state is reached with capacity two under a different
interleaving: both puts complete before the first get. -/
lemma exFinal_reach2 : Reach 2 [(42 : Int)] exFinal :=
  Relation.ReflTransGen.head
    (Step.producerPut (initState [(42 : Int)]) rfl (by decide) (by decide))
    (Relation.ReflTransGen.head
      (Step.producerPutSentinel _ rfl rfl (by decide))
      (Relation.ReflTransGen.head
        (Step.consumerGetItem _ 0 (some 42) [sentinel] rfl rfl (by decide))
        (Relation.ReflTransGen.single
          (Step.consumerGetSentinel _ [] rfl rfl))))

lemma exEmptySent_reach : Reach 1 ([] : List Int) exEmptySent :=
  Relation.ReflTransGen.single
    (Step.producerPutSentinel (initState ([] : List Int)) rfl rfl (by decide))

/-! ### The claims -/

/-- C1: for every source list, a run of the pipeline in which the producer
has put the sentinel and the consumer has left its loop (both threads
joined, no faults) leaves the destination element-wise equal to the
source. -/
theorem pipeline_dest_eq_source {α : Type} (C : Nat) (source : List α)
    (s : PCState α) (h : Reach C source s) (_hp : s.sentSent = true)
    (hc : s.consDone = true) : s.dest = source.map some :=
  inv_dest_final (reach_inv h) hc

theorem pipeline_dest_eq_source_witness :
    Reach 1 [(42 : Int)] exFinal ∧ exFinal.dest = [(42 : Int)].map some :=
  ⟨exFinal_reach, pipeline_dest_eq_source 1 [(42 : Int)] exFinal exFinal_reach rfl rfl⟩

/-- C2: in every state where the producer has finished, its put history is
exactly the items `(0, source[0])`, ..., `(N-1, source[N-1])` in that
order followed by exactly one sentinel; for the empty source this is one
sentinel and no items. -/
theorem producer_put_sequence {α : Type} (C : Nat) (source : List α)
    (s : PCState α) (h : Reach C source s) (hp : s.sentSent = true) :
    s.prodHist = fullStream source := by
  have inv := reach_inv h
  rw [inv.hist_eq, hp, enqueuedUpTo_true, inv.sent_imp hp, List.take_length,
    fullStream]

theorem producer_put_sequence_witness :
    Reach 1 ([] : List Int) exEmptySent ∧
    exEmptySent.prodHist = fullStream ([] : List Int) :=
  ⟨exEmptySent_reach, producer_put_sequence 1 [] exEmptySent exEmptySent_reach rfl⟩

/-- C3: in every reachable state the get history of the consumer is a
prefix of the full stream (items in producer order, ascending index), it
contains at most one sentinel, when the consumer is done it is exactly all
items followed by the one sentinel, and once done the consumer makes no
further get on any step. -/
theorem consumer_observed_sequence {α : Type} (C : Nat) (source : List α)
    (s : PCState α) (h : Reach C source s) :
    (∃ t, s.consHist ++ t = fullStream source) ∧
    s.consHist.countP (fun e => decide (e.1 = (none : Option Nat))) ≤ 1 ∧
    (s.consDone = true → s.consHist = fullStream source) ∧
    (∀ s', s.consDone = true → Step C source s s' → s'.consHist = s.consHist) := by
  have inv := reach_inv h
  refine ⟨inv_stream_front inv, inv_sentinel_count inv,
    fun hc => inv_done_consHist inv hc, ?_⟩
  intro s' hc hstep
  cases hstep with
  | producerPut hsent hlt hcap => rfl
  | producerPutSentinel hsent hidx hcap => rfl
  | consumerGetItem i w rest hdone2 hq hb => exact absurd hc (by simp [hdone2])
  | consumerGetSentinel rest hdone2 hq => exact absurd hc (by simp [hdone2])

theorem consumer_observed_sequence_witness :
    (∃ t, exFinal.consHist ++ t = fullStream [(42 : Int)]) ∧
    exFinal.consHist.countP (fun e => decide (e.1 = (none : Option Nat))) ≤ 1 ∧
    (exFinal.consDone = true → exFinal.consHist = fullStream [(42 : Int)]) ∧
    (∀ s', exFinal.consDone = true → Step 1 [(42 : Int)] exFinal s' →
      s'.consHist = exFinal.consHist) :=
  consumer_observed_sequence 1 [(42 : Int)] exFinal exFinal_reach

/-- C4: with the capacity `max(1, N div 2)` computed by the orchestrator,
every reachable state keeps the queue length between `0` and the capacity;
on a full queue no step completes a put (the producer blocks), and on an
empty queue no step completes a get (the consumer blocks). -/
theorem channel_length_invariant {α : Type} (source : List α) (s : PCState α)
    (h : Reach (channelCap source.length) source s) :
    (0 ≤ s.queue.length ∧ s.queue.length ≤ channelCap source.length) ∧
    (∀ s', Step (channelCap source.length) source s s' →
      s.queue.length = channelCap source.length → s'.prodHist = s.prodHist) ∧
    (∀ s', Step (channelCap source.length) source s s' →
      s.queue.length = 0 → s'.consHist = s.consHist) := by
  have inv := reach_inv h
  refine ⟨⟨Nat.zero_le _, inv.cap⟩, ?_, ?_⟩
  · intro s' hstep hfull
    cases hstep with
    | producerPut hsent hlt hcap => exact absurd hfull (by omega)
    | producerPutSentinel hsent hidx hcap => exact absurd hfull (by omega)
    | consumerGetItem i w rest hdone2 hq hb => rfl
    | consumerGetSentinel rest hdone2 hq => rfl
  · intro s' hstep hempty
    cases hstep with
    | producerPut hsent hlt hcap => rfl
    | producerPutSentinel hsent hidx hcap => rfl
    | consumerGetItem i w rest hdone2 hq hb => exact absurd hempty (by simp [hq])
    | consumerGetSentinel rest hdone2 hq => exact absurd hempty (by simp [hq])

theorem channel_length_invariant_witness :
    Reach (channelCap [(42 : Int)].length) [(42 : Int)] exMid ∧
    exMid.queue.length = channelCap [(42 : Int)].length ∧
    Step (channelCap [(42 : Int)].length) [(42 : Int)] exMid exMid2 ∧
    exMid2.prodHist = exMid.prodHist :=
  ⟨exMid_reach, rfl, exMid_step,
    (channel_length_invariant [(42 : Int)] exMid exMid_reach).2.1 exMid2
      exMid_step rfl⟩

/-- C5: in every reachable state, each in-range destination slot has been
written at most once (at most one completed get carries its index); a
written slot holds exactly the source value at that index and an unwritten
slot still holds `None`. -/
theorem destination_write_once {α : Type} (C : Nat) (source : List α)
    (s : PCState α) (h : Reach C source s) (i : Nat) (hi : i < source.length) :
    s.consHist.countP (fun e => decide (e.1 = some i)) ≤ 1 ∧
    (s.consHist.countP (fun e => decide (e.1 = some i)) = 1 →
      s.dest.getD i none = source[i]?) ∧
    (s.consHist.countP (fun e => decide (e.1 = some i)) = 0 →
      s.dest.getD i none = none) := by
  have inv := reach_inv h
  have hc := inv_countP inv i hi
  have hd : s.dest.getD i none =
      if i < s.consHist.length then source[i]? else none := by
    rw [inv.dest_eq]
    exact destAfter_getD source s.consHist.length i hi
  by_cases hic : i < s.consHist.length
  · rw [hc, hd, if_pos hic, if_pos hic]
    exact ⟨by omega, fun _ => rfl, fun h0 => absurd h0 (by omega)⟩
  · rw [hc, hd, if_neg hic, if_neg hic]
    exact ⟨by omega, fun h1 => absurd h1 (by omega), fun _ => rfl⟩

theorem destination_write_once_witness :
    0 < [(42 : Int)].length ∧
    (exFinal.consHist.countP (fun e => decide (e.1 = some 0)) ≤ 1 ∧
      (exFinal.consHist.countP (fun e => decide (e.1 = some 0)) = 1 →
        exFinal.dest.getD 0 none = [(42 : Int)][0]?) ∧
      (exFinal.consHist.countP (fun e => decide (e.1 = some 0)) = 0 →
        exFinal.dest.getD 0 none = none)) :=
  ⟨by decide,
    destination_write_once 1 [(42 : Int)] exFinal exFinal_reach 0 (by decide)⟩

/-- C6: the orchestrator computes the channel capacity as
`max(1, N div 2)`; in particular `N = 10` gives `5`, `N = 1` gives `1`
and `N = 3` gives `1`. -/
theorem orchestrator_capacity_formula :
    channelCap 10 = 5 ∧ channelCap 1 = 1 ∧ channelCap 3 = 1 := by decide

/-- C7: a raise inside either run loop is caught by that loop, which then
merely terminates: both run functions return in every fault scenario.  If
the producer caught a raise, the elements it put never include a sentinel;
if it caught none, it put exactly the full stream.  A consumer that caught
a raise did not end its loop by seeing the sentinel. -/
theorem run_loop_fault_containment {α : Type} (source : List α)
    (failAt failC : Nat → Bool) (dest : List (Option α))
    (stream : List (Elem α)) :
    ((producerRun source failAt).2 = true →
      sentinel ∉ (producerRun source failAt).1) ∧
    ((producerRun source failAt).2 = false →
      (producerRun source failAt).1 = fullStream source) ∧
    ((consumerRun failC dest stream).2.2 = true →
      (consumerRun failC dest stream).2.1 = false) := by
  refine ⟨?_, ?_, ?_⟩
  · intro hf
    rcases hres : producerBody failAt 0 source with l | l
    · have hrun : producerRun source failAt = (l, true) := by
        unfold producerRun
        rw [hres]
      rw [hrun]
      exact producerBody_error_shape failAt source 0 l hres
    · have hrun : producerRun source failAt = (l, false) := by
        unfold producerRun
        rw [hres]
      rw [hrun] at hf
      simp at hf
  · intro hok
    rcases hres : producerBody failAt 0 source with l | l
    · have hrun : producerRun source failAt = (l, true) := by
        unfold producerRun
        rw [hres]
      rw [hrun] at hok
      simp at hok
    · have hrun : producerRun source failAt = (l, false) := by
        unfold producerRun
        rw [hres]
      rw [hrun]
      show l = fullStream source
      rw [producerBody_ok_shape failAt source 0 l hres, fullStream]
  · intro hfault
    rcases hres : consumerBody failC 0 dest stream with d | ⟨d, fin⟩
    · have hrun : consumerRun failC dest stream = (d, false, true) := by
        unfold consumerRun
        rw [hres]
      rw [hrun]
    · have hrun : consumerRun failC dest stream = (d, fin, false) := by
        unfold consumerRun
        rw [hres]
      rw [hrun] at hfault
      simp at hfault

theorem run_loop_fault_containment_witness :
    (producerRun [(5 : Int)] (fun j => decide (j = 0))).2 = true ∧
    sentinel ∉ (producerRun [(5 : Int)] (fun j => decide (j = 0))).1 :=
  ⟨by decide,
    (run_loop_fault_containment [(5 : Int)] (fun j => decide (j = 0))
      (fun _ => false) ([] : List (Option Int)) ([] : List (Elem Int))).1
      (by decide)⟩

/-- C8: the sentinel `(None, None)` is disjoint from every valid item: the
pair `(i, v)` with a real index and a real value never equals it, so the
end-of-stream test of the consumer never classifies a legitimate data
element, index `0` and value `0` included, as the sentinel. -/
theorem sentinel_disjoint_from_items {α : Type} [DecidableEq α] (i : Nat)
    (v : α) :
    sentinelCheck ((some i, some v) : Elem α) = false ∧
    ((some i, some v) : Elem α) ≠ sentinel := by
  constructor
  · simp [sentinelCheck, sentinel]
  · simp [sentinel]

theorem sentinel_disjoint_from_items_witness :
    sentinelCheck ((some 0, some (0 : Rat)) : Elem Rat) = false ∧
    ((some 0, some (0 : Rat)) : Elem Rat) ≠ sentinel :=
  sentinel_disjoint_from_items 0 0

/-- C9 counterexample: the run entry point does not accept a desired
source length.  Against the spec-side definition, which at a requested
length `3` builds a source of length `3`, the entry point of the code
builds a source of length `10` whatever is requested, so the two differ
at the concrete input `3`. -/
theorem entry_point_fixed_size_cex :
    (mainSource (fun n => (n : Int))).length ≠
      (specEntrySource 3 (fun n => (n : Int))).length := by
  decide

/-- C9 (amended): the run entry point accepts no inputs; it always uses
the fixed source length `10`, a destination of `10` empty slots, the fixed
random mixed integer and real source policy (modelled by the draw oracle),
and hence channel capacity `5`. -/
theorem entry_point_constants {α : Type} (draw : Nat → α) :
    (mainSource draw).length = mainSize ∧ mainSize = 10 ∧
    (mainDestination α).length = mainSize ∧ mainCapacity = 5 :=
  ⟨by simp [mainSource, mainSize], rfl, rfl, by decide⟩

theorem entry_point_constants_witness :
    (mainSource (fun n => (n : Int))).length = mainSize ∧ mainSize = 10 ∧
    (mainDestination Int).length = mainSize ∧ mainCapacity = 5 :=
  entry_point_constants (fun n => (n : Int))

/-- C10: for a fixed source, any two completed fault-free runs, under any
interleavings and any capacities, leave identical destination contents. -/
theorem run_destination_deterministic {α : Type} (source : List α)
    (C₁ C₂ : Nat) (s₁ s₂ : PCState α) (h₁ : Reach C₁ source s₁)
    (h₂ : Reach C₂ source s₂) (_hp₁ : s₁.sentSent = true)
    (hc₁ : s₁.consDone = true) (_hp₂ : s₂.sentSent = true)
    (hc₂ : s₂.consDone = true) : s₁.dest = s₂.dest := by
  rw [inv_dest_final (reach_inv h₁) hc₁, inv_dest_final (reach_inv h₂) hc₂]

theorem run_destination_deterministic_witness :
    Reach 1 [(42 : Int)] exFinal ∧ Reach 2 [(42 : Int)] exFinal ∧
    exFinal.dest = exFinal.dest :=
  ⟨exFinal_reach, exFinal_reach2,
    run_destination_deterministic [(42 : Int)] 1 2 exFinal exFinal exFinal_reach
      exFinal_reach2 rfl rfl rfl rfl⟩

end UptimeCrew
